import Mathlib

/-!
Verification of the multithreaded ray tracer in `InOneWeekend/src/main.cpp`.

The file shallowly embeds the renderer core: the recursive path integrator
`ray_color`, the per-pixel sampling and tone-mapping pipeline of
`render_block`, the row partitioning and thread selection performed by
`main`, and the progress counter.  Doubles are modelled as real numbers,
C++ `int` depths as `Int`, and the shared pixel buffer as a function
`Nat → Color`.  Geometry (`hittable::hit`) and materials
(`material::scatter`) live in headers that are not part of the sources, so
they are kept abstract: a hittable is any function from ray and interval to
an optional hit record, and a material is any scatter function, exactly the
interface `main.cpp` consumes.
-/

namespace RT

/-- Modelled from the spec: 3-component floating-point vector (`vec3.h` is not
in src/); components are modelled as real numbers. -/
structure vec3 where
  x : ℝ
  y : ℝ
  z : ℝ

instance : Add vec3 := ⟨fun a b => ⟨a.x + b.x, a.y + b.y, a.z + b.z⟩⟩

/-- Modelled from the spec: component-wise product of two vectors
(`vec3.h` is not in src/). -/
instance : Mul vec3 := ⟨fun a b => ⟨a.x * b.x, a.y * b.y, a.z * b.z⟩⟩

/-- Modelled from the spec: scalar times vector (`vec3.h` is not in src/). -/
instance : SMul ℝ vec3 := ⟨fun s v => ⟨s * v.x, s * v.y, s * v.z⟩⟩

/-- Modelled from the spec: Euclidean length of a vector
(`vec3.h` is not in src/). -/
noncomputable def vec3.length (v : vec3) : ℝ :=
  Real.sqrt (v.x * v.x + v.y * v.y + v.z * v.z)

/-- Modelled from the spec: normalization `v / |v|` (`vec3.h` is not in src/). -/
noncomputable def unit_vector (v : vec3) : vec3 := (1 / v.length) • v

/-- A ray: origin plus direction (`ray.h` interface as used by `main.cpp`). -/
structure ray where
  origin : vec3
  direction : vec3

/-- Modelled from the spec: a scalar range bounding valid intersection
parameters; the upper end may be infinite (`interval.h` is not in src/).
The interval is opaque data passed through to the abstract `hit`. -/
structure interval where
  lo : ℝ
  hi : EReal

/-- The interval `(0.001, +infinity)` that `ray_color` passes to `world.hit`. -/
noncomputable def shadow_acne_interval : interval := ⟨0.001, ⊤⟩

/-- The geometric part of a hit record: point, outward-facing normal,
parameter t and the front-face flag. -/
structure hit_geom where
  p : vec3
  normal : vec3
  t : ℝ
  front_face : Bool

/-- A material is its scatter capability: given the incoming ray and the hit,
optionally produce (attenuation, scattered ray); `none` means the ray is
absorbed.  This is exactly the interface `main.cpp` consumes; the three
concrete variants live in `material.h`, which is not in src/. -/
structure material where
  scatter : ray → hit_geom → Option (vec3 × ray)

/-- A hit record: geometry plus the material at the hit point. -/
structure hit_record where
  geom : hit_geom
  mat : material

/-- A hittable is its hit capability: the nearest hit of the ray inside the
interval, or `none`.  Concrete shapes live in headers not in src/; `main.cpp`
only consumes this interface. -/
structure hittable where
  hit : ray → interval → Option hit_record

/-- Modelled from the spec: a `hittable_list` with zero members reports no hit
for any ray (`hittable_list.h` is not in src/). -/
def empty_world : hittable := ⟨fun _ _ => none⟩

/-- The recursive path integrator, `main.cpp` lines 26-42: non-positive depth
returns black; a hit queries the material, multiplying the attenuation
component-wise into the one-level-shallower recursive color, or black on
absorption; a miss returns the vertical sky gradient. -/
noncomputable def ray_color (r : ray) (world : hittable) (depth : Int) : vec3 :=
  if h : depth ≤ 0 then ⟨0, 0, 0⟩
  else
    match world.hit r shadow_acne_interval with
    | some rec =>
      match rec.mat.scatter r rec.geom with
      | some (attenuation, scattered) =>
          attenuation * ray_color scattered world (depth - 1)
      | none => ⟨0, 0, 0⟩
    | none =>
      let unit_direction := unit_vector r.direction
      let t := 0.5 * (unit_direction.y + 1.0)
      (1.0 - t) • (⟨1.0, 1.0, 1.0⟩ : vec3) + t • (⟨0.5, 0.7, 1.0⟩ : vec3)
termination_by depth.toNat
decreasing_by
  simp_wf
  omega

/-- The sky gradient as the spec states it: `(1-t)*(1,1,1) + t*(0.5,0.7,1.0)`
with `t = 0.5*(unit(direction).y + 1)`. -/
noncomputable def sky_gradient (r : ray) : vec3 :=
  let t := 0.5 * ((unit_vector r.direction).y + 1.0)
  (1.0 - t) • (⟨1.0, 1.0, 1.0⟩ : vec3) + t • (⟨0.5, 0.7, 1.0⟩ : vec3)

/-- Fuel-indexed unfolding of `ray_color`: `none` when the fuel runs out
before the recursion bottoms out.  Used to state that the recursion of
`ray_color` is well-founded on `depth`. -/
noncomputable def ray_color_fuel (fuel : Nat) (r : ray) (world : hittable)
    (depth : Int) : Option vec3 :=
  match fuel with
  | 0 => none
  | Nat.succ fuel' =>
    if depth ≤ 0 then some ⟨0, 0, 0⟩
    else
      match world.hit r shadow_acne_interval with
      | some rec =>
        match rec.mat.scatter r rec.geom with
        | some (attenuation, scattered) =>
            (ray_color_fuel fuel' scattered world (depth - 1)).map
              (fun c => attenuation * c)
        | none => some ⟨0, 0, 0⟩
      | none => some (sky_gradient r)

/-- `main.cpp` line 160: `rows_per_thread = image_height / actual_threads`. -/
def rows_per_thread (height threads : Nat) : Nat := height / threads

/-- `main.cpp` line 161: `remaining_rows = image_height % actual_threads`. -/
def remaining_rows (height threads : Nat) : Nat := height % threads

/-- `main.cpp` line 167: `start_row = t * rows_per_thread`. -/
def start_row (height threads t : Nat) : Nat := t * rows_per_thread height threads

/-- `main.cpp` lines 168-172: `end_row = start_row + rows_per_thread`, with the
remainder rows appended when `t` is the last thread. -/
def end_row (height threads t : Nat) : Nat :=
  start_row height threads t + rows_per_thread height threads +
    (if t = threads - 1 then remaining_rows height threads else 0)

/-- The number of rows assigned to worker `t`. -/
def rows_of (height threads t : Nat) : Nat :=
  end_row height threads t - start_row height threads t

/-- The progress counter after a list of completed-row events, each event
tagged with the worker id that performed the `fetch_add(1)`
(`main.cpp` line 66).  The counter starts from the reset value 0
(`main.cpp` line 158) and each event adds exactly 1. -/
def counter_after (events : List Nat) : Nat := events.foldl (fun c _ => c + 1) 0

/-- An RGBA8 pixel of the raylib `Color` kind; each channel is a byte value. -/
structure Color where
  r : Nat
  g : Nat
  b : Nat
  a : Nat
deriving DecidableEq

/-- `std::clamp(x, 0.0, 0.999)` as used in `main.cpp` lines 60-62. -/
noncomputable def clamp999 (x : ℝ) : ℝ :=
  if x < 0 then 0 else if 0.999 < x then 0.999 else x

/-- The quantization in `main.cpp` lines 60-62: `(unsigned char)(256 * clamp)`,
the C++ float-to-integer cast truncating toward zero (the operand is
non-negative, so this is the floor). -/
noncomputable def toByte (x : ℝ) : Nat := (⌊(256 : ℝ) * clamp999 x⌋).toNat

/-- The sample accumulation loop of `main.cpp` lines 49-53: the sum of
`ray_color` over `samples` camera rays for pixel (i, j).  `gr i j s` is the
(jittered) camera ray of sample `s`, kept abstract since `camera.h` is not
in src/. -/
noncomputable def sample_sum (gr : Nat → Nat → Nat → ray) (world : hittable)
    (depth : Int) (samples i j : Nat) : vec3 :=
  (List.range samples).foldl
    (fun acc s => acc + ray_color (gr i j s) world depth) ⟨0, 0, 0⟩

/-- The pixel value computed by `main.cpp` lines 49-64: accumulate samples,
scale by `1.0 / samples`, per-channel square root, clamp, quantize, alpha 255. -/
noncomputable def computed_pixel (gr : Nat → Nat → Nat → ray) (world : hittable)
    (depth : Int) (samples i j : Nat) : Color :=
  let pixel_color := sample_sum gr world depth samples i j
  let scale : ℝ := 1.0 / samples
  ⟨toByte (Real.sqrt (scale * pixel_color.x)),
   toByte (Real.sqrt (scale * pixel_color.y)),
   toByte (Real.sqrt (scale * pixel_color.z)), 255⟩

/-- Store a pixel at a buffer index (`pixels[idx] = c`). -/
def writepx (buf : Nat → Color) (idx : Nat) (c : Color) : Nat → Color :=
  fun k => if k = idx then c else buf k

/-- The inner column loop of `render_block` (`main.cpp` lines 48-65): write the
computed pixel of every column of row `j` at row-major index `j*width + i`. -/
noncomputable def render_row (gr : Nat → Nat → Nat → ray) (world : hittable)
    (depth : Int) (samples width j : Nat) (buf : Nat → Color) : Nat → Color :=
  (List.range width).foldl
    (fun b i => writepx b (j * width + i) (computed_pixel gr world depth samples i j))
    buf

/-- `render_block` (`main.cpp` lines 44-68): process rows
`start_r ≤ j < end_r` in order. -/
noncomputable def render_block (gr : Nat → Nat → Nat → ray) (world : hittable)
    (depth : Int) (samples width start_r end_r : Nat) (buf : Nat → Color) :
    Nat → Color :=
  (List.range' start_r (end_r - start_r)).foldl
    (fun b j => render_row gr world depth samples width j b) buf

/-- Worker `t` of the render pass (`main.cpp` lines 166-177): runs
`render_block` on its partitioned row range.  `grOf t` is worker t's camera-ray
stream, a pure function of the worker's own seed (modelled from the spec:
per-worker thread-local random generators; the generator itself is in headers
not in src/). -/
noncomputable def worker_apply (grOf : Nat → Nat → Nat → Nat → ray)
    (world : hittable) (depth : Int) (samples width height threads t : Nat)
    (buf : Nat → Color) : Nat → Color :=
  render_block (grOf t) world depth samples width
    (start_row height threads t) (end_row height threads t) buf

/-- A whole render pass executed under a schedule `order`: the workers' buffer
effects applied in the order the schedule interleaves them. -/
noncomputable def run_render (grOf : Nat → Nat → Nat → Nat → ray)
    (world : hittable) (depth : Int) (samples width height threads : Nat)
    (order : List Nat) (buf : Nat → Color) : Nat → Color :=
  order.foldl
    (fun b t => worker_apply grOf world depth samples width height threads t b)
    buf

/-- `main.cpp` line 71. -/
def image_width : Nat := 800

/-- `main.cpp` line 72. -/
def image_height : Nat := 450

/-- `main.cpp` line 73. -/
def samples_per_pixel : Nat := 50

/-- `main.cpp` line 74. -/
def max_depth : Nat := 10

/-- `main.cpp` line 80: a detected hardware concurrency of 0 is replaced by 4. -/
def actual_threads (num_threads : Nat) : Nat :=
  if num_threads = 0 then 4 else num_threads

/-- The configuration handling of `main.cpp` lines 76-82 wrapped in `Option`
so that the spec's demanded rejection would be expressible as `none`: the code
has no failure path and always proceeds with `actual_threads num_threads`. -/
def resolve_config (num_threads : Nat) : Option Nat :=
  some (actual_threads num_threads)

/-- A concrete ray used to instantiate universally quantified theorems. -/
noncomputable def zray : ray := ⟨⟨0, 0, 0⟩, ⟨0, 0, 1⟩⟩

/-- A material that always absorbs. -/
def absorb_mat : material := ⟨fun _ _ => none⟩

/-- A concrete hit geometry. -/
noncomputable def unit_geom : hit_geom := ⟨⟨0, 0, 0⟩, ⟨0, 0, 1⟩, 1, true⟩

/-- A hit record whose material always absorbs. -/
noncomputable def absorb_rec : hit_record := ⟨unit_geom, absorb_mat⟩

/-- A world that reports the absorbing hit for every ray. -/
noncomputable def absorb_world : hittable := ⟨fun _ _ => some absorb_rec⟩

/-- A constant camera-ray stream used to instantiate theorems. -/
noncomputable def const_gr : Nat → Nat → Nat → ray := fun _ _ _ => zray

/-- A constant per-worker camera-ray stream used to instantiate theorems. -/
noncomputable def const_grOf : Nat → Nat → Nat → Nat → ray := fun _ _ _ _ => zray

/-- An all-black opaque buffer used to instantiate theorems. -/
def black_buf : Nat → Color := fun _ => ⟨0, 0, 0, 255⟩

/-! ### Unfolding lemmas for `ray_color` -/

theorem ray_color_nonpos (r : ray) (w : hittable) (depth : Int) (h : depth ≤ 0) :
    ray_color r w depth = ⟨0, 0, 0⟩ := by
  rw [ray_color]
  simp [h]

theorem ray_color_hit_scatter (r : ray) (w : hittable) (depth : Int)
    (rec : hit_record) (att : vec3) (sc : ray) (hd : ¬ depth ≤ 0)
    (hhit : w.hit r shadow_acne_interval = some rec)
    (hscat : rec.mat.scatter r rec.geom = some (att, sc)) :
    ray_color r w depth = att * ray_color sc w (depth - 1) := by
  rw [ray_color]
  simp [hd, hhit, hscat]

theorem ray_color_hit_absorb (r : ray) (w : hittable) (depth : Int)
    (rec : hit_record) (hd : ¬ depth ≤ 0)
    (hhit : w.hit r shadow_acne_interval = some rec)
    (hscat : rec.mat.scatter r rec.geom = none) :
    ray_color r w depth = ⟨0, 0, 0⟩ := by
  rw [ray_color]
  simp [hd, hhit, hscat]

theorem ray_color_miss_eq (r : ray) (w : hittable) (depth : Int)
    (hd : ¬ depth ≤ 0) (hmiss : w.hit r shadow_acne_interval = none) :
    ray_color r w depth = sky_gradient r := by
  rw [ray_color, sky_gradient]
  simp [hd, hmiss]

/-! ### Claims about the path integrator -/

/-- Claim C1: for every ray, scene, and depth > 0, if the scene reports a hit
of the ray within `(0.001, +infinity)`, then `ray_color` returns the
material's attenuation componentwise-multiplied with `ray_color` of the
scattered ray at depth-1 when scatter succeeds, and black when scatter
fails. -/
theorem claim_C1_ray_color_hit (r : ray) (w : hittable) (depth : Int)
    (rec : hit_record) (hd : 0 < depth)
    (hhit : w.hit r shadow_acne_interval = some rec) :
    (∀ att sc, rec.mat.scatter r rec.geom = some (att, sc) →
        ray_color r w depth = att * ray_color sc w (depth - 1)) ∧
    (rec.mat.scatter r rec.geom = none → ray_color r w depth = ⟨0, 0, 0⟩) := by
  constructor
  · intro att sc hscat
    exact ray_color_hit_scatter r w depth rec att sc (by omega) hhit hscat
  · intro hscat
    exact ray_color_hit_absorb r w depth rec (by omega) hhit hscat

/-- Witness for C1 at depth 1 on a world whose material always absorbs. -/
theorem claim_C1_witness :
    ((0 : Int) < 1 ∧ absorb_world.hit zray shadow_acne_interval = some absorb_rec) ∧
    ((∀ att sc, absorb_rec.mat.scatter zray absorb_rec.geom = some (att, sc) →
        ray_color zray absorb_world 1 = att * ray_color sc absorb_world (1 - 1)) ∧
     (absorb_rec.mat.scatter zray absorb_rec.geom = none →
        ray_color zray absorb_world 1 = ⟨0, 0, 0⟩)) :=
  ⟨⟨by decide, rfl⟩,
   claim_C1_ray_color_hit zray absorb_world 1 absorb_rec (by decide) rfl⟩

/-- Claim C4: for every ray and every scene, `ray_color` at depth 0 returns
exactly black, regardless of scene contents. -/
theorem claim_C4_depth_zero (r : ray) (w : hittable) :
    ray_color r w 0 = ⟨0, 0, 0⟩ :=
  ray_color_nonpos r w 0 (by decide)

/-- Claim C5: a ray the scene does not hit in `(0.001, +infinity)` at positive
depth yields the sky gradient; in particular, with a scene of zero shapes
every ray's color follows the analytic gradient of its vertical direction
component. -/
theorem claim_C5_miss_sky (r : ray) (w : hittable) (depth : Int)
    (hd : 0 < depth) (hmiss : w.hit r shadow_acne_interval = none) :
    ray_color r w depth = sky_gradient r ∧
    ∀ (r' : ray) (d : Int), 0 < d → ray_color r' empty_world d = sky_gradient r' := by
  refine ⟨ray_color_miss_eq r w depth (by omega) hmiss, ?_⟩
  intro r' d hd'
  exact ray_color_miss_eq r' empty_world d (by omega) rfl

/-- Witness for C5 at depth 1 on the empty world. -/
theorem claim_C5_witness :
    ((0 : Int) < 1 ∧ empty_world.hit zray shadow_acne_interval = none) ∧
    (ray_color zray empty_world 1 = sky_gradient zray ∧
     ∀ (r' : ray) (d : Int), 0 < d → ray_color r' empty_world d = sky_gradient r') :=
  ⟨⟨by decide, rfl⟩, claim_C5_miss_sky zray empty_world 1 (by decide) rfl⟩

/-- Claim C9: `ray_color` returns black for every non-positive depth, negative
depths included: the terminal guard is `depth <= 0`, not `depth == 0`. -/
theorem claim_C9_depth_nonpos (r : ray) (w : hittable) (depth : Int)
    (h : depth ≤ 0) : ray_color r w depth = ⟨0, 0, 0⟩ :=
  ray_color_nonpos r w depth h

/-- Witness for C9 at the negative depth -5. -/
theorem claim_C9_witness :
    (-5 : Int) ≤ 0 ∧ ray_color zray absorb_world (-5) = ⟨0, 0, 0⟩ :=
  ⟨by decide, claim_C9_depth_nonpos zray absorb_world (-5) (by decide)⟩

/-- Claim C10: `ray_color` terminates on every input: unfolding its recursion
with any fuel exceeding `depth.toNat` already reaches a result, i.e. the
recursion is well-founded on the depth argument. -/
theorem claim_C10_terminates (w : hittable) :
    ∀ (fuel : Nat) (r : ray) (depth : Int), depth.toNat < fuel →
      ray_color_fuel fuel r w depth = some (ray_color r w depth) := by
  intro fuel
  induction fuel with
  | zero => intro r depth h; omega
  | succ fuel ih =>
    intro r depth h
    by_cases hd : depth ≤ 0
    · simp [ray_color_fuel, hd, ray_color_nonpos r w depth hd]
    · cases hhit : w.hit r shadow_acne_interval with
      | none =>
          simp [ray_color_fuel, hd, hhit, ray_color_miss_eq r w depth hd hhit]
      | some rec =>
        cases hscat : rec.mat.scatter r rec.geom with
        | none =>
            simp [ray_color_fuel, hd, hhit, hscat,
              ray_color_hit_absorb r w depth rec hd hhit hscat]
        | some p =>
          obtain ⟨att, sc⟩ := p
          have hih := ih sc (depth - 1) (by omega)
          simp [ray_color_fuel, hd, hhit, hscat, hih,
            ray_color_hit_scatter r w depth rec att sc hd hhit hscat]

/-- Witness for C10: fuel 3 suffices at depth 2. -/
theorem claim_C10_witness :
    (2 : Int).toNat < 3 ∧
    ray_color_fuel 3 zray absorb_world 2 = some (ray_color zray absorb_world 2) :=
  ⟨by decide, claim_C10_terminates absorb_world 3 zray 2 (by decide)⟩

/-! ### Row partitioning -/

theorem threads_mul_rpt_add_rem (height threads : Nat) :
    threads * rows_per_thread height threads + remaining_rows height threads
      = height := by
  simpa [rows_per_thread, remaining_rows] using Nat.div_add_mod height threads

theorem end_row_le_start_row (height threads t1 t2 : Nat) (h12 : t1 < t2)
    (h2 : t2 < threads) :
    end_row height threads t1 ≤ start_row height threads t2 := by
  have ht1 : t1 ≠ threads - 1 := by omega
  unfold end_row start_row
  simp only [ht1, if_false]
  have h1 : (t1 + 1) * rows_per_thread height threads
      ≤ t2 * rows_per_thread height threads :=
    mul_le_mul_right' (by omega) _
  have h2' : (t1 + 1) * rows_per_thread height threads
      = t1 * rows_per_thread height threads + rows_per_thread height threads := by
    ring
  omega

theorem exists_owner (height threads : Nat) (ht : 0 < threads) (j : Nat)
    (hj : j < height) :
    ∃ t, t < threads ∧ start_row height threads t ≤ j
      ∧ j < end_row height threads t := by
  have hsum := threads_mul_rpt_add_rem height threads
  by_cases hr : rows_per_thread height threads = 0
  · have hrem : remaining_rows height threads = height := by
      rw [hr] at hsum
      omega
    refine ⟨threads - 1, by omega, ?_, ?_⟩
    · simp [start_row, hr]
    · unfold end_row start_row
      simp only [hr, Nat.mul_zero, Nat.zero_add, Nat.add_zero,
        eq_self_iff_true, if_true]
      omega
  · have hrpos : 0 < rows_per_thread height threads := Nat.pos_of_ne_zero hr
    by_cases hcmp : j / rows_per_thread height threads < threads
    · refine ⟨j / rows_per_thread height threads, hcmp, ?_, ?_⟩
      · exact Nat.div_mul_le_self j _
      · have h2 : j % rows_per_thread height threads
            < rows_per_thread height threads := Nat.mod_lt _ hrpos
        have h3 : j < j / rows_per_thread height threads
            * rows_per_thread height threads + rows_per_thread height threads := by
          conv_lhs => rw [← Nat.div_add_mod j (rows_per_thread height threads)]
          rw [Nat.mul_comm (rows_per_thread height threads) _]
          exact Nat.add_lt_add_left h2 _
        unfold end_row start_row
        omega
    · refine ⟨threads - 1, by omega, ?_, ?_⟩
      · have h1 : (threads - 1) * rows_per_thread height threads
            ≤ j / rows_per_thread height threads
              * rows_per_thread height threads :=
          mul_le_mul_right' (by omega) _
        have h2 : j / rows_per_thread height threads
            * rows_per_thread height threads ≤ j := Nat.div_mul_le_self j _
        unfold start_row
        omega
      · unfold end_row start_row
        simp only [eq_self_iff_true, if_true]
        have h1 : (threads - 1) * rows_per_thread height threads
            + rows_per_thread height threads
            = threads * rows_per_thread height threads := by
          have : threads - 1 + 1 = threads := by omega
          calc (threads - 1) * rows_per_thread height threads
              + rows_per_thread height threads
              = (threads - 1 + 1) * rows_per_thread height threads := by ring
          _ = threads * rows_per_thread height threads := by rw [this]
        omega

theorem row_owner_unique (height threads : Nat) (ht : 0 < threads) (j : Nat)
    (hj : j < height) :
    ∃! t, t < threads ∧ start_row height threads t ≤ j
      ∧ j < end_row height threads t := by
  obtain ⟨t, htl, hts, hte⟩ := exists_owner height threads ht j hj
  refine ⟨t, ⟨htl, hts, hte⟩, ?_⟩
  rintro y ⟨hyl, hys, hye⟩
  by_contra hne
  rcases Nat.lt_or_ge y t with hlt | hge
  · have := end_row_le_start_row height threads y t hlt htl
    omega
  · have hlt : t < y := by omega
    have := end_row_le_start_row height threads t y hlt hyl
    omega

theorem pix_index_inj (width j i j' i' : Nat) (hi : i < width) (hi' : i' < width)
    (h : j * width + i = j' * width + i') : j = j' ∧ i = i' := by
  have hjj : j = j' := by
    by_contra hne
    rcases Nat.lt_or_ge j j' with hlt | hge
    · have h1 : (j + 1) * width ≤ j' * width := mul_le_mul_right' (by omega) width
      have h2 : (j + 1) * width = j * width + width := by ring
      omega
    · have hlt : j' < j := by omega
      have h1 : (j' + 1) * width ≤ j * width := mul_le_mul_right' (by omega) width
      have h2 : (j' + 1) * width = j' * width + width := by ring
      omega
  subst hjj
  omega

/-- Claim C2: the rows `[0, height)` are partitioned into `threads` contiguous
non-overlapping ranges with the remainder appended to the last range, so every
row belongs to exactly one worker's range; consequently every pixel index
`j*width + i` is written by exactly one worker. -/
theorem claim_C2_partition (height width threads : Nat) (ht : 0 < threads)
    (j i : Nat) (hj : j < height) (hi : i < width) :
    (∃! t, t < threads ∧ start_row height threads t ≤ j
        ∧ j < end_row height threads t) ∧
    (∃! t, t < threads ∧ ∃ j' i', i' < width
        ∧ start_row height threads t ≤ j' ∧ j' < end_row height threads t
        ∧ j * width + i = j' * width + i') := by
  obtain ⟨t, ⟨htl, hts, hte⟩, huniq⟩ := row_owner_unique height threads ht j hj
  refine ⟨⟨t, ⟨htl, hts, hte⟩, huniq⟩, ⟨t, ⟨htl, j, i, hi, hts, hte, rfl⟩, ?_⟩⟩
  rintro y ⟨hyl, j', i', hi', hys, hye, heq⟩
  obtain ⟨hj', hi''⟩ := pix_index_inj width j i j' i' hi hi' heq
  subst hj'
  exact huniq y ⟨hyl, hys, hye⟩

/-- Witness for C2: height 3, width 2, 2 threads, pixel (j, i) = (2, 1). -/
theorem claim_C2_witness :
    (0 < 2 ∧ 2 < 3 ∧ 1 < 2) ∧
    ((∃! t, t < 2 ∧ start_row 3 2 t ≤ 2 ∧ 2 < end_row 3 2 t) ∧
     (∃! t, t < 2 ∧ ∃ j' i', i' < 2
        ∧ start_row 3 2 t ≤ j' ∧ j' < end_row 3 2 t
        ∧ 2 * 2 + 1 = j' * 2 + i')) :=
  ⟨by decide, claim_C2_partition 3 2 2 (by decide) 2 1 (by decide) (by decide)⟩

/-! ### Progress counter -/

theorem counter_after_eq_length (events : List Nat) :
    counter_after events = events.length := by
  suffices h : ∀ (l : List Nat) (c : Nat), l.foldl (fun c _ => c + 1) c = c + l.length by
    simpa [counter_after] using h events 0
  intro l
  induction l with
  | nil => intro c; simp
  | cons a l ih => intro c; simp [ih]; omega

theorem length_eq_sum_count (threads : Nat) (l : List Nat)
    (hmem : ∀ x ∈ l, x < threads) :
    l.length = ∑ t ∈ Finset.range threads, l.count t := by
  induction l with
  | nil => simp
  | cons a l ih =>
    have ha : a < threads := hmem a (by simp)
    have ih' := ih (fun x hx => hmem x (by simp [hx]))
    have hsum : (∑ t ∈ Finset.range threads, List.count t (a :: l))
        = ∑ t ∈ Finset.range threads,
            (List.count t l + if a = t then 1 else 0) := by
      refine Finset.sum_congr rfl fun t _ => ?_
      rw [List.count_cons]
      simp [beq_iff_eq]
    simp only [List.length_cons, ih', hsum]
    rw [Finset.sum_add_distrib]
    have hone : (∑ t ∈ Finset.range threads, if a = t then 1 else 0) = 1 := by
      rw [Finset.sum_ite_eq (Finset.range threads) a (fun _ => 1)]
      simp [Finset.mem_range.mpr ha]
    omega

theorem sum_rows_of (height threads : Nat) (ht : 0 < threads) :
    ∑ t ∈ Finset.range threads, rows_of height threads t = height := by
  have hro : ∀ t, rows_of height threads t
      = rows_per_thread height threads
        + (if t = threads - 1 then remaining_rows height threads else 0) := by
    intro t
    unfold rows_of end_row start_row
    omega
  rw [Finset.sum_congr rfl (fun t _ => hro t), Finset.sum_add_distrib,
    Finset.sum_const, Finset.card_range, smul_eq_mul,
    Finset.sum_ite_eq' (Finset.range threads) (threads - 1)
      (fun _ => remaining_rows height threads)]
  have hmem : threads - 1 ∈ Finset.range threads := Finset.mem_range.mpr (by omega)
  rw [if_pos hmem]
  exact threads_mul_rpt_add_rem height threads

/-- Claim C6: the progress counter is 0 at the reset before any worker is
spawned, each completed row adds exactly 1 so the counter never decreases as
events accumulate, and once every worker has finished all its rows the counter
equals the image height. -/
theorem claim_C6_progress (height threads : Nat) (ht : 0 < threads)
    (sched : List Nat) (hmem : ∀ x ∈ sched, x < threads)
    (hcnt : ∀ t, t < threads → sched.count t = rows_of height threads t) :
    counter_after [] = 0 ∧
    (∀ done later : List Nat, counter_after done ≤ counter_after (done ++ later)) ∧
    counter_after sched = height := by
  refine ⟨rfl, ?_, ?_⟩
  · intro done later
    simp only [counter_after_eq_length, List.length_append]
    omega
  · rw [counter_after_eq_length, length_eq_sum_count threads sched hmem,
      Finset.sum_congr rfl (fun t htm => hcnt t (Finset.mem_range.mp htm))]
    exact sum_rows_of height threads ht

/-- Witness for C6: height 3, 2 threads, schedule `[0, 1, 1]`. -/
theorem claim_C6_witness :
    (0 < 2 ∧ (∀ x ∈ [0, 1, 1], x < 2)
      ∧ (∀ t, t < 2 → [0, 1, 1].count t = rows_of 3 2 t)) ∧
    (counter_after [] = 0 ∧
     (∀ done later : List Nat, counter_after done ≤ counter_after (done ++ later)) ∧
     counter_after [0, 1, 1] = 3) :=
  ⟨⟨by decide, by decide, by decide⟩,
   claim_C6_progress 3 2 (by decide) [0, 1, 1] (by decide) (by decide)⟩

/-! ### Pixel buffer lemmas -/

theorem foldl_writepx_range (base : Nat) (cp : Nat → Color) (n : Nat)
    (buf : Nat → Color) (k : Nat) :
    ((List.range n).foldl (fun b i => writepx b (base + i) (cp i)) buf) k
      = if base ≤ k ∧ k < base + n then cp (k - base) else buf k := by
  induction n with
  | zero =>
    simp only [List.range_zero, List.foldl_nil, Nat.add_zero]
    rw [if_neg (by omega)]
  | succ n ih =>
    rw [List.range_succ, List.foldl_append]
    simp only [List.foldl_cons, List.foldl_nil, writepx]
    by_cases hk : k = base + n
    · rw [if_pos hk, if_pos (by omega)]
      subst hk
      rw [Nat.add_sub_cancel_left]
    · rw [if_neg hk, ih]
      by_cases h2 : base ≤ k ∧ k < base + n
      · rw [if_pos h2, if_pos ⟨h2.1, by omega⟩]
      · rw [if_neg h2, if_neg (by omega)]

theorem render_row_apply (gr : Nat → Nat → Nat → ray) (world : hittable)
    (depth : Int) (samples width j : Nat) (buf : Nat → Color) (k : Nat) :
    render_row gr world depth samples width j buf k
      = if j * width ≤ k ∧ k < j * width + width
        then computed_pixel gr world depth samples (k - j * width) j
        else buf k := by
  unfold render_row
  exact foldl_writepx_range (j * width)
    (fun i => computed_pixel gr world depth samples i j) width buf k

theorem div_mod_of_row (width start k : Nat) (h1 : start * width ≤ k)
    (h2 : k < start * width + width) :
    k / width = start ∧ k % width = k - start * width := by
  rcases Nat.eq_zero_or_pos width with hw | hw
  · subst hw
    simp only [Nat.mul_zero, Nat.add_zero] at h2
    omega
  · have hr : k - start * width < width := by omega
    have hk : k = (k - start * width) + start * width := by omega
    constructor
    · conv_lhs => rw [hk]
      rw [Nat.add_mul_div_right _ _ hw, Nat.div_eq_of_lt hr]
      omega
    · conv_lhs => rw [hk]
      rw [Nat.add_mul_mod_self_right, Nat.mod_eq_of_lt hr]

theorem render_rows_aux (gr : Nat → Nat → Nat → ray) (world : hittable)
    (depth : Int) (samples width : Nat) :
    ∀ (m start : Nat) (buf : Nat → Color) (k : Nat),
      ((List.range' start m).foldl
          (fun b j => render_row gr world depth samples width j b) buf) k
        = if start * width ≤ k ∧ k < (start + m) * width
          then computed_pixel gr world depth samples (k % width) (k / width)
          else buf k := by
  intro m
  induction m with
  | zero =>
    intro start buf k
    simp only [List.range', List.foldl_nil, Nat.add_zero]
    rw [if_neg (by omega)]
  | succ m ih =>
    intro start buf k
    rw [List.range'_succ, List.foldl_cons, ih (start + 1)]
    have e1 : (start + 1) * width = start * width + width := by ring
    have e2 : (start + 1 + m) * width = (start + (m + 1)) * width := by ring
    have e3 : (start + (m + 1)) * width = start * width + (m + 1) * width := by
      ring
    have e4 : width ≤ (m + 1) * width := Nat.le_mul_of_pos_left width (by omega)
    rw [e1, e2, render_row_apply]
    by_cases c1 : start * width + width ≤ k ∧ k < (start + (m + 1)) * width
    · rw [if_pos c1, if_pos (by omega)]
    · rw [if_neg c1]
      by_cases c2 : start * width ≤ k ∧ k < start * width + width
      · rw [if_pos c2, if_pos (by omega)]
        obtain ⟨hdiv, hmod⟩ := div_mod_of_row width start k c2.1 c2.2
        rw [hdiv, hmod]
      · rw [if_neg c2, if_neg (by omega)]

theorem render_block_apply (gr : Nat → Nat → Nat → ray) (world : hittable)
    (depth : Int) (samples width start_r end_r : Nat) (h : start_r ≤ end_r)
    (buf : Nat → Color) (k : Nat) :
    render_block gr world depth samples width start_r end_r buf k
      = if start_r * width ≤ k ∧ k < end_r * width
        then computed_pixel gr world depth samples (k % width) (k / width)
        else buf k := by
  unfold render_block
  rw [render_rows_aux gr world depth samples width (end_r - start_r) start_r buf k,
    show start_r + (end_r - start_r) = end_r from by omega]

theorem toByte_le_255 (x : ℝ) : toByte x ≤ 255 := by
  unfold toByte
  rw [Int.toNat_le]
  have hlt : (256 : ℝ) * clamp999 x < 256 := by
    unfold clamp999
    split_ifs with h1 h2
    · norm_num
    · norm_num
    · nlinarith
  have hfl : ⌊(256 : ℝ) * clamp999 x⌋ < (256 : ℤ) := by
    rw [Int.floor_lt]
    push_cast
    exact hlt
  omega

/-- Claim C3: the pixel written by `render_block` at row-major index
`j*width + i` is exactly the per-channel pipeline: the accumulated sample sum
averaged (divided by `samples`), square-rooted, clamped to `[0, 0.999]`,
scaled by 256 and truncated (all inside `toByte`), with alpha exactly 255,
and each channel fits in 8 bits. -/
theorem claim_C3_pixel_pipeline (gr : Nat → Nat → Nat → ray) (world : hittable)
    (depth : Int) (samples width start_r end_r j i : Nat) (buf : Nat → Color)
    (h1 : start_r ≤ j) (h2 : j < end_r) (hi : i < width) :
    render_block gr world depth samples width start_r end_r buf (j * width + i)
      = ⟨toByte (Real.sqrt ((sample_sum gr world depth samples i j).x / samples)),
         toByte (Real.sqrt ((sample_sum gr world depth samples i j).y / samples)),
         toByte (Real.sqrt ((sample_sum gr world depth samples i j).z / samples)),
         255⟩
    ∧ (∀ x : ℝ, toByte x ≤ 255) := by
  constructor
  · rw [render_block_apply gr world depth samples width start_r end_r
      (by omega) buf (j * width + i)]
    have hs : start_r * width ≤ j * width := mul_le_mul_right' h1 width
    have he : (j + 1) * width ≤ end_r * width := mul_le_mul_right' (by omega) width
    have e1 : (j + 1) * width = j * width + width := by ring
    rw [if_pos (by omega)]
    obtain ⟨hdiv, hmod⟩ := div_mod_of_row width j (j * width + i)
      (by omega) (by omega)
    rw [hdiv, hmod, show j * width + i - j * width = i from by omega]
    unfold computed_pixel
    have hx : ∀ c : ℝ, 1.0 / (samples : ℝ) * c = c / samples := fun c => by
      rw [show (1.0 : ℝ) = 1 from by norm_num, one_div_mul_eq_div]
    simp only [hx]
  · exact toByte_le_255

/-- Witness for C3: a 1x1 block, one sample, depth 1, on the empty world. -/
theorem claim_C3_witness :
    (0 ≤ 0 ∧ 0 < 1 ∧ 0 < 1) ∧
    (render_block const_gr empty_world 1 1 1 0 1 black_buf (0 * 1 + 0)
        = ⟨toByte (Real.sqrt ((sample_sum const_gr empty_world 1 1 0 0).x
             / ((1 : ℕ) : ℝ))),
           toByte (Real.sqrt ((sample_sum const_gr empty_world 1 1 0 0).y
             / ((1 : ℕ) : ℝ))),
           toByte (Real.sqrt ((sample_sum const_gr empty_world 1 1 0 0).z
             / ((1 : ℕ) : ℝ))),
           255⟩
     ∧ (∀ x : ℝ, toByte x ≤ 255)) :=
  ⟨⟨by decide, by decide, by decide⟩,
   claim_C3_pixel_pipeline const_gr empty_world 1 1 1 0 1 0 0 black_buf
     (by decide) (by decide) (by decide)⟩

/-! ### Configuration handling -/

/-- Counterexample to claim C7 as stated: at the concrete input of a detected
thread count of zero, the configuration handling of `main` does not reject
(`resolve_config 0` is not `none`); it silently substitutes 4 threads and
proceeds. -/
theorem claim_C7_counterexample :
    resolve_config 0 ≠ none ∧ resolve_config 0 = some 4 ∧ actual_threads 0 ≠ 0 :=
  ⟨by decide, by decide, by decide⟩

/-- Claim C7 (amended): the configuration of `main` is hard-coded to positive
constants (so zero dimensions or samples cannot arise), and a detected thread
count of zero is not rejected before rendering: it is substituted with 4, so
`resolve_config` always yields a positive thread count and has no failure
path. -/
theorem claim_C7_no_validation :
    (0 < image_width ∧ 0 < image_height ∧ 0 < samples_per_pixel) ∧
    (∀ hw : Nat, resolve_config hw = some (actual_threads hw)) ∧
    (∀ hw : Nat, 0 < actual_threads hw) ∧ actual_threads 0 = 4 := by
  refine ⟨⟨by decide, by decide, by decide⟩, fun hw => rfl, fun hw => ?_, by decide⟩
  unfold actual_threads
  split_ifs with h
  · decide
  · omega

/-! ### Determinism of the render pass -/

theorem foldl_perm_comm {α β : Type _} (f : β → α → β) (P : α → Prop)
    (hcomm : ∀ x y, P x → P y → ∀ b, f (f b x) y = f (f b y) x) :
    ∀ {l1 l2 : List α}, l1.Perm l2 → (∀ x ∈ l1, P x) → ∀ b : β,
      l1.foldl f b = l2.foldl f b := by
  intro l1 l2 hp
  induction hp with
  | nil => intro _ b; rfl
  | cons x hp ih =>
    intro hP b
    simp only [List.foldl_cons]
    exact ih (fun y hy => hP y (List.mem_cons_of_mem x hy)) (f b x)
  | swap x y l =>
    intro hP b
    simp only [List.foldl_cons]
    rw [hcomm y x (hP y (by simp)) (hP x (by simp)) b]
  | trans h1 h2 ih1 ih2 =>
    intro hP b
    rw [ih1 hP b, ih2 (fun x hx => hP x (h1.mem_iff.mpr hx)) b]

theorem start_row_le_end_row (height threads t : Nat) :
    start_row height threads t ≤ end_row height threads t := by
  unfold end_row
  omega

theorem write_ranges_disjoint (height threads width t1 t2 k : Nat)
    (h1 : t1 < threads) (h2 : t2 < threads) (hne : t1 ≠ t2)
    (ha : start_row height threads t1 * width ≤ k
      ∧ k < end_row height threads t1 * width)
    (hb : start_row height threads t2 * width ≤ k
      ∧ k < end_row height threads t2 * width) :
    False := by
  rcases Nat.lt_or_ge t1 t2 with hlt | hge
  · have h := end_row_le_start_row height threads t1 t2 hlt h2
    have := mul_le_mul_right' h width
    omega
  · have hlt : t2 < t1 := by omega
    have h := end_row_le_start_row height threads t2 t1 hlt h1
    have := mul_le_mul_right' h width
    omega

theorem worker_comm (grOf : Nat → Nat → Nat → Nat → ray) (world : hittable)
    (depth : Int) (samples width height threads : Nat) (t1 t2 : Nat)
    (h1 : t1 < threads) (h2 : t2 < threads) (buf : Nat → Color) :
    worker_apply grOf world depth samples width height threads t2
        (worker_apply grOf world depth samples width height threads t1 buf)
      = worker_apply grOf world depth samples width height threads t1
          (worker_apply grOf world depth samples width height threads t2 buf) := by
  rcases eq_or_ne t1 t2 with heq | hne
  · rw [heq]
  · funext k
    unfold worker_apply
    have hA : ∀ b : Nat → Color,
        render_block (grOf t1) world depth samples width
          (start_row height threads t1) (end_row height threads t1) b k
          = if start_row height threads t1 * width ≤ k
              ∧ k < end_row height threads t1 * width
            then computed_pixel (grOf t1) world depth samples (k % width) (k / width)
            else b k :=
      fun b => render_block_apply (grOf t1) world depth samples width _ _
        (start_row_le_end_row height threads t1) b k
    have hB : ∀ b : Nat → Color,
        render_block (grOf t2) world depth samples width
          (start_row height threads t2) (end_row height threads t2) b k
          = if start_row height threads t2 * width ≤ k
              ∧ k < end_row height threads t2 * width
            then computed_pixel (grOf t2) world depth samples (k % width) (k / width)
            else b k :=
      fun b => render_block_apply (grOf t2) world depth samples width _ _
        (start_row_le_end_row height threads t2) b k
    rw [hB (render_block (grOf t1) world depth samples width
          (start_row height threads t1) (end_row height threads t1) buf),
        hA buf,
        hA (render_block (grOf t2) world depth samples width
          (start_row height threads t2) (end_row height threads t2) buf),
        hB buf]
    by_cases c1 : start_row height threads t1 * width ≤ k
        ∧ k < end_row height threads t1 * width
      <;> by_cases c2 : start_row height threads t2 * width ≤ k
        ∧ k < end_row height threads t2 * width
    · exact (write_ranges_disjoint height threads width t1 t2 k
        h1 h2 hne c1 c2).elim
    · simp [c1, c2]
    · simp [c1, c2]
    · simp [c1, c2]

/-- Claim C8: two runs of a render pass with identical configuration, scene,
row partitioning and fixed per-worker ray streams (seeds) produce
byte-identical pixel buffers, whatever order the scheduler runs the workers
in: the output is a function of configuration and seeds alone. -/
theorem claim_C8_deterministic (grOf : Nat → Nat → Nat → Nat → ray)
    (world : hittable) (depth : Int) (samples width height threads : Nat)
    (order1 order2 : List Nat) (buf : Nat → Color)
    (h1 : order1.Perm (List.range threads))
    (h2 : order2.Perm (List.range threads)) :
    run_render grOf world depth samples width height threads order1 buf
      = run_render grOf world depth samples width height threads order2 buf := by
  unfold run_render
  have hp : order1.Perm order2 := h1.trans h2.symm
  refine foldl_perm_comm _ (fun t => t < threads) ?_ hp ?_ buf
  · intro x y hx hy b
    exact worker_comm grOf world depth samples width height threads x y hx hy b
  · intro x hx
    exact List.mem_range.mp (h1.mem_iff.mp hx)

/-- Witness for C8: two workers run in the two possible orders. -/
theorem claim_C8_witness :
    ([1, 0].Perm (List.range 2) ∧ [0, 1].Perm (List.range 2)) ∧
    run_render const_grOf empty_world 1 1 1 2 2 [1, 0] black_buf
      = run_render const_grOf empty_world 1 1 1 2 2 [0, 1] black_buf :=
  ⟨⟨by decide, by decide⟩,
   claim_C8_deterministic const_grOf empty_world 1 1 1 2 2 [1, 0] [0, 1]
     black_buf (by decide) (by decide)⟩

end RT
